import Mathlib

/-!
Verification of the chunked file-encryption core of the `postgres-backup`
repository (`app/tools/cryptools.py`) against its natural-language
specification.

Modelling conventions:
  * File contents are `List Nat` (one `Nat` per byte; the code never relies
    on byte wrap-around, only on `int.to_bytes`/`int.from_bytes`, which are
    modelled with explicit `% 2^64` behaviour via base-256 digits).
  * The Fernet cipher of the `cryptography` library is external to the
    repository; it is modelled as an abstract `FernetModel` (an
    encrypt/decrypt pair indexed by a key), and each theorem takes exactly
    the cipher laws it needs (round-trip, non-empty ciphertexts,
    authentication) as hypotheses.  `demoFernet` is one concrete instance
    of those laws, used by the witnesses.
  * SHA-256 (`hashlib`) is likewise external; it is modelled as an
    abstract function `hash : List Nat → List Nat` with the properties a
    theorem needs (at most determinism, which is free, and injectivity
    where collision-freedom is essential) taken as hypotheses.
  * `f.read(n)` on a Python binary file returns the next `min n remaining`
    bytes; it is modelled by `List.take`/`List.drop` on the unread suffix.
  * Loops that consume at least one byte per iteration are written with an
    explicit fuel equal to the input length, so every definition is
    executable and kernel-reducible; fuel-stability lemmas recover the
    loop equations.
-/

/-! ## Byte-level primitives: `int.to_bytes(8, 'big')` / `int.from_bytes` -/

/-- `n.to_bytes(w, byteorder='big')`: the `w`-byte big-endian encoding of
`n` (Python raises `OverflowError` for `n ≥ 256^w`; the model truncates,
and every theorem that parses a length field assumes the value fits). -/
def toBytesBE (w : Nat) (n : Nat) : List Nat :=
  match w with
  | 0 => []
  | w' + 1 => toBytesBE w' (n / 256) ++ [n % 256]

/-- `int.from_bytes(bs, byteorder='big')`. -/
def fromBytesBE (bs : List Nat) : Nat :=
  bs.foldl (fun acc b => acc * 256 + b) 0

theorem toBytesBE_length (w n : Nat) : (toBytesBE w n).length = w := by
  induction w generalizing n with
  | zero => rfl
  | succ w ih => simp [toBytesBE, ih]

theorem fromBytesBE_append_singleton (bs : List Nat) (b : Nat) :
    fromBytesBE (bs ++ [b]) = fromBytesBE bs * 256 + b := by
  simp [fromBytesBE, List.foldl_append]

theorem fromBytesBE_toBytesBE_mod (w n : Nat) :
    fromBytesBE (toBytesBE w n) = n % 256 ^ w := by
  induction w generalizing n with
  | zero => simp [toBytesBE, fromBytesBE, Nat.mod_one]
  | succ w ih =>
    rw [toBytesBE, fromBytesBE_append_singleton, ih]
    have h : 256 ^ (w + 1) = 256 * 256 ^ w := by ring
    rw [h, Nat.mod_mul]
    ring

theorem fromBytesBE_toBytesBE (w n : Nat) (h : n < 256 ^ w) :
    fromBytesBE (toBytesBE w n) = n := by
  rw [fromBytesBE_toBytesBE_mod, Nat.mod_eq_of_lt h]

/-! ## Concatenation of a list of byte blocks -/

/-- Concatenation of a list of blocks (decrypted chunks are written to the
output file in read order; their concatenation is the restored content). -/
def joinAll : List (List Nat) → List Nat
  | [] => []
  | b :: bs => b ++ joinAll bs

theorem joinAll_append (xs ys : List (List Nat)) :
    joinAll (xs ++ ys) = joinAll xs ++ joinAll ys := by
  induction xs with
  | nil => rfl
  | cons x xs ih => simp [joinAll, ih]

theorem joinAll_take_length_lt (cs : List (List Nat)) (i : Nat)
    (hi : i < cs.length) (hne : ∀ c ∈ cs, c ≠ []) :
    (joinAll (cs.take i)).length < (joinAll cs).length := by
  induction cs generalizing i with
  | nil => simp at hi
  | cons c cs ih =>
    cases i with
    | zero =>
      have hc : c ≠ [] := hne c (by simp)
      have : 0 < c.length := List.length_pos.mpr hc
      simp [joinAll]
      omega
    | succ i =>
      have hi' : i < cs.length := by simpa using hi
      have := ih i hi' (fun x hx => hne x (by simp [hx]))
      simp [joinAll]
      omega

/-! ## The plaintext chunking performed by `encrypt_file`'s read loop

`while chunk := infile.read(chunk_size): ...` reads successive blocks of at
most `chunk_size` bytes and stops at the first empty read.  (With
`chunk_size = 0`, `read(0)` returns `b""` immediately and no chunk is
produced, which the model reproduces.) -/

def chunksOfAux (k : Nat) : Nat → List Nat → List (List Nat)
  | 0, _ => []
  | _ + 1, [] => []
  | fuel + 1, s => s.take k :: chunksOfAux k fuel (s.drop k)

def chunksOf (k : Nat) (s : List Nat) : List (List Nat) :=
  if k = 0 then [] else chunksOfAux k s.length s

/-- Strong induction on the length of a list (the decrypt and chunking
loops consume at least one byte per iteration, so their unread suffix gets
strictly shorter). -/
theorem byLengthInduction {α : Type} {P : List α → Prop}
    (step : ∀ s : List α, (∀ t : List α, t.length < s.length → P t) → P s) :
    ∀ s, P s := by
  have H : ∀ n, ∀ s : List α, s.length ≤ n → P s := by
    intro n
    induction n with
    | zero =>
      intro s hs
      exact step s (fun t ht => absurd (Nat.lt_of_lt_of_le ht hs) (by omega))
    | succ n ih =>
      intro s _
      exact step s (fun t ht => ih t (by omega))
  exact fun s => H s.length s le_rfl

theorem chunksOfAux_fuel_inv (k : Nat) (hk : 0 < k) :
    ∀ fuel₁ fuel₂ s, s.length ≤ fuel₁ → s.length ≤ fuel₂ →
      chunksOfAux k fuel₁ s = chunksOfAux k fuel₂ s := by
  intro fuel₁
  induction fuel₁ with
  | zero =>
    intro fuel₂ s hs₁ _
    have : s = [] := List.length_eq_zero.mp (Nat.le_zero.mp hs₁)
    subst this
    cases fuel₂ <;> rfl
  | succ fuel₁ ih =>
    intro fuel₂ s hs₁ hs₂
    match s with
    | [] => cases fuel₂ <;> rfl
    | a :: s =>
      cases fuel₂ with
      | zero => simp at hs₂
      | succ fuel₂ =>
        show (a :: s).take k :: chunksOfAux k fuel₁ ((a :: s).drop k)
            = (a :: s).take k :: chunksOfAux k fuel₂ ((a :: s).drop k)
        have hd : ((a :: s).drop k).length = s.length + 1 - k := by
          simp only [List.length_drop, List.length_cons]
        simp only [List.length_cons] at hs₁ hs₂
        rw [ih fuel₂ _ (by omega) (by omega)]

theorem chunksOfAux_fuel (k : Nat) (hk : 0 < k) :
    ∀ fuel s, s.length ≤ fuel → chunksOfAux k fuel s = chunksOfAux k s.length s :=
  fun fuel s hs => chunksOfAux_fuel_inv k hk fuel s.length s hs le_rfl

theorem chunksOf_nil (k : Nat) : chunksOf k [] = [] := by
  cases k <;> rfl

theorem chunksOf_cons (k : Nat) (hk : 0 < k) (s : List Nat) (hs : s ≠ []) :
    chunksOf k s = s.take k :: chunksOf k (s.drop k) := by
  unfold chunksOf
  rw [if_neg (by omega), if_neg (by omega)]
  match s, hs with
  | a :: s, _ =>
    show (a :: s).take k :: chunksOfAux k s.length ((a :: s).drop k)
        = (a :: s).take k :: chunksOfAux k ((a :: s).drop k).length ((a :: s).drop k)
    rw [chunksOfAux_fuel k hk s.length _
      (by simp only [List.length_drop, List.length_cons]; omega)]

theorem joinAll_chunksOf (k : Nat) (hk : 0 < k) : ∀ s, joinAll (chunksOf k s) = s := by
  refine byLengthInduction (fun s ih => ?_)
  cases s with
  | nil => simp [chunksOf_nil, joinAll]
  | cons a s =>
    rw [chunksOf_cons k hk _ (by simp), joinAll]
    rw [ih ((a :: s).drop k) (by simp only [List.length_drop, List.length_cons]; omega),
      List.take_append_drop]

theorem chunksOf_length_le (k : Nat) : ∀ s, ∀ c ∈ chunksOf k s, c.length ≤ k := by
  refine byLengthInduction (fun s ih => ?_)
  intro c hc
  by_cases hk : k = 0
  · subst hk; simp [chunksOf] at hc
  cases s with
  | nil => rw [chunksOf_nil] at hc; simp at hc
  | cons a s =>
    rw [chunksOf_cons k (by omega) _ (by simp)] at hc
    rcases List.mem_cons.mp hc with h | h
    · subst h
      simp [List.length_take]
    · exact ih ((a :: s).drop k)
        (by simp only [List.length_drop, List.length_cons]; omega) c h

theorem chunksOf_ne_nil (k : Nat) (hk : 0 < k) : ∀ s, ∀ c ∈ chunksOf k s, c ≠ [] := by
  refine byLengthInduction (fun s ih => ?_)
  intro c hc
  cases s with
  | nil => rw [chunksOf_nil] at hc; simp at hc
  | cons a s =>
    rw [chunksOf_cons k hk _ (by simp)] at hc
    rcases List.mem_cons.mp hc with h | h
    · subst h
      cases k with
      | zero => omega
      | succ k => simp [List.take_succ_cons]
    · exact ih ((a :: s).drop k)
        (by simp only [List.length_drop, List.length_cons]; omega) c h

/-! ## The Fernet chunk codec (external `cryptography` library)

`cryptography.fernet.Fernet` is outside this repository; the container
code only relies on it through `fernet.encrypt` / `fernet.decrypt`.  It is
modelled as an abstract encrypt/decrypt pair indexed by a `Nat` key; each
theorem assumes only the cipher laws it needs. -/

inductive DecErr where
  /-- `fernet.decrypt` raised `InvalidToken` (a chunk failed its
  authentication check). -/
  | integrity
  /-- the final digest comparison failed (`ValueError: File hash
  verification failed!`). -/
  | hashMismatch
deriving DecidableEq, Repr

structure FernetModel where
  enc : Nat → List Nat → List Nat
  dec : Nat → List Nat → Option (List Nat)

/-- A concrete instance of the cipher laws, used by the witnesses: the
ciphertext records the key and the plaintext length, so decryption under
the right key round-trips, any proper truncation is rejected, and any
other key is rejected. -/
def demoFernet : FernetModel where
  enc k m := (k + 1) :: m.length :: m
  dec k c :=
    match c with
    | a :: n :: rest => if a = k + 1 ∧ rest.length = n then some rest else none
    | _ => none

theorem demoFernet_roundTrip (k : Nat) :
    ∀ m, demoFernet.dec k (demoFernet.enc k m) = some m := by
  intro m
  simp [demoFernet]

theorem demoFernet_ctNonEmpty (k : Nat) : ∀ m, demoFernet.enc k m ≠ [] := by
  intro m
  simp [demoFernet]

theorem demoFernet_truncReject (k : Nat) :
    ∀ m j, j < (demoFernet.enc k m).length →
      demoFernet.dec k ((demoFernet.enc k m).take j) = none := by
  intro m j hj
  simp only [demoFernet] at hj ⊢
  match j with
  | 0 => simp
  | 1 => simp
  | j + 2 =>
    simp only [List.take_succ_cons]
    have hlen : (m.take j).length = j := by
      simp only [List.length_take]
      simp only [List.length_cons] at hj
      omega
    have hne : (m.take j).length ≠ m.length := by
      simp only [List.length_cons] at hj
      omega
    simp only [List.length_cons] at hj
    simp [hne]
    omega

theorem demoFernet_wrongKey (k k' : Nat) (h : k ≠ k') :
    ∀ m, demoFernet.dec k' (demoFernet.enc k m) = none := by
  intro m
  simp only [demoFernet]
  have : ¬(k + 1 = k' + 1) := by omega
  simp [this]

/-! ## Container Writer (`encrypt_file`, lines 95-104)

The container is: `len(original_hash).to_bytes(8,'big') ++ original_hash`
followed by, for each plaintext chunk, `len(ct).to_bytes(8,'big') ++ ct`
where `ct = fernet.encrypt(chunk)`. -/

def encodeChunk (F : FernetModel) (k : Nat) (c : List Nat) : List Nat :=
  toBytesBE 8 (F.enc k c).length ++ F.enc k c

def encodeAll (F : FernetModel) (k : Nat) (cs : List (List Nat)) : List Nat :=
  joinAll (cs.map (encodeChunk F k))

/-- The bytes `encrypt_file` writes for input `content`: header (length of
the digest of the original plaintext, then the digest itself) followed by
the length-prefixed encrypted chunks. -/
def encryptContainer (F : FernetModel) (k : Nat) (hash : List Nat → List Nat)
    (chunkSize : Nat) (content : List Nat) : List Nat :=
  toBytesBE 8 (hash content).length ++ hash content
    ++ encodeAll F k (chunksOf chunkSize content)

/-! ## Container Reader (`decrypt_file`, lines 230-243)

The loop reads an 8-byte length prefix (`read(8)`; at end of stream this
is empty and the loop exits), interprets it big-endian, reads that many
bytes (a short read is whatever is left; if it is empty the loop also
exits), decrypts, and writes the plaintext to the output file.  `readLoop`
returns the concatenation of the plaintexts written before the loop ended
together with `none` (normal exit) or `some e` (the exception raised). -/

def readLoopAux (F : FernetModel) (k : Nat) :
    Nat → List Nat → List Nat × Option DecErr
  | _, [] => ([], none)
  | 0, _ :: _ => ([], none)
  | fuel + 1, s =>
    let size := fromBytesBE (s.take 8)
    let body := (s.drop 8).take size
    if body = [] then ([], none)
    else
      match F.dec k body with
      | none => ([], some .integrity)
      | some m =>
        let r := readLoopAux F k fuel ((s.drop 8).drop size)
        (m ++ r.1, r.2)

def readLoop (F : FernetModel) (k : Nat) (s : List Nat) :
    List Nat × Option DecErr :=
  readLoopAux F k s.length s

theorem readLoopAux_succ_cons (F : FernetModel) (k fuel a : Nat) (s : List Nat) :
    readLoopAux F k (fuel + 1) (a :: s) =
      (let size := fromBytesBE ((a :: s).take 8)
       let body := ((a :: s).drop 8).take size
       if body = [] then ([], none)
       else
         match F.dec k body with
         | none => ([], some .integrity)
         | some m =>
           let r := readLoopAux F k fuel (((a :: s).drop 8).drop size)
           (m ++ r.1, r.2)) :=
  rfl

theorem readLoopAux_fuel_inv (F : FernetModel) (k : Nat) :
    ∀ fuel₁ fuel₂ s, s.length ≤ fuel₁ → s.length ≤ fuel₂ →
      readLoopAux F k fuel₁ s = readLoopAux F k fuel₂ s := by
  intro fuel₁
  induction fuel₁ with
  | zero =>
    intro fuel₂ s hs₁ _
    have : s = [] := List.length_eq_zero.mp (Nat.le_zero.mp hs₁)
    subst this
    cases fuel₂ <;> rfl
  | succ fuel₁ ih =>
    intro fuel₂ s hs₁ hs₂
    match s with
    | [] => cases fuel₂ <;> rfl
    | a :: s =>
      cases fuel₂ with
      | zero => simp at hs₂
      | succ fuel₂ =>
        rw [readLoopAux_succ_cons, readLoopAux_succ_cons]
        simp only
        have hd : (((a :: s).drop 8).drop (fromBytesBE ((a :: s).take 8))).length
            ≤ s.length := by
          simp only [List.length_drop, List.length_cons]
          omega
        simp only [List.length_cons] at hs₁ hs₂
        rw [ih fuel₂ (((a :: s).drop 8).drop (fromBytesBE ((a :: s).take 8)))
          (by omega) (by omega)]

theorem readLoop_nil (F : FernetModel) (k : Nat) : readLoop F k [] = ([], none) :=
  rfl

theorem readLoop_cons (F : FernetModel) (k : Nat) (s : List Nat) (hs : s ≠ []) :
    readLoop F k s =
      (let size := fromBytesBE (s.take 8)
       let body := (s.drop 8).take size
       if body = [] then ([], none)
       else
         match F.dec k body with
         | none => ([], some .integrity)
         | some m =>
           let r := readLoop F k ((s.drop 8).drop size)
           (m ++ r.1, r.2)) := by
  match s, hs with
  | a :: s, _ =>
    show readLoopAux F k (s.length + 1) (a :: s) = _
    rw [readLoopAux_succ_cons]
    simp only [readLoop]
    have hd : (((a :: s).drop 8).drop (fromBytesBE ((a :: s).take 8))).length
        ≤ s.length := by
      simp only [List.length_drop, List.length_cons]
      omega
    rw [readLoopAux_fuel_inv F k s.length
      (((a :: s).drop 8).drop (fromBytesBE ((a :: s).take 8))).length _ hd le_rfl]

/-- `decrypt_file`'s whole-stream processing (lines 222-270), as a function
of the container bytes: parse the header (`hash_length` from the first 8
bytes, then that many digest bytes), run the chunk loop, and finally
compare the digest of the written output with the parsed digest
(`ValueError` on mismatch, modelled as `DecErr.hashMismatch`). -/
def decryptContainer (F : FernetModel) (k : Nat) (hash : List Nat → List Nat)
    (container : List Nat) : Except DecErr (List Nat) :=
  match readLoop F k ((container.drop 8).drop (fromBytesBE (container.take 8))) with
  | (_, some e) => .error e
  | (out, none) =>
    if hash out = (container.drop 8).take (fromBytesBE (container.take 8))
    then .ok out else .error .hashMismatch

/-- The chunk loop accepts a well-formed stream of length-prefixed
ciphertext records and returns the concatenated plaintexts. -/
theorem readLoop_encodeAll (F : FernetModel) (k : Nat) :
    ∀ cs : List (List Nat),
      (∀ c ∈ cs, F.dec k (F.enc k c) = some c) →
      (∀ c ∈ cs, F.enc k c ≠ []) →
      (∀ c ∈ cs, (F.enc k c).length < 256 ^ 8) →
      readLoop F k (encodeAll F k cs) = (joinAll cs, none) := by
  intro cs
  induction cs with
  | nil =>
    intro _ _ _
    simp [encodeAll, joinAll, readLoop_nil]
  | cons c cs ih =>
    intro hrt hne hsmall
    have hene : F.enc k c ≠ [] := hne c (by simp)
    have hstream : encodeAll F k (c :: cs)
        = (toBytesBE 8 (F.enc k c).length ++ F.enc k c) ++ encodeAll F k cs := by
      simp [encodeAll, joinAll, encodeChunk, List.map_cons]
    have hsne : encodeAll F k (c :: cs) ≠ [] := by
      rw [hstream]
      intro h
      have := congrArg List.length h
      simp [toBytesBE_length] at this
    rw [readLoop_cons F k _ hsne]
    simp only [hstream]
    have htake : ((toBytesBE 8 (F.enc k c).length ++ F.enc k c) ++ encodeAll F k cs).take 8
        = toBytesBE 8 (F.enc k c).length := by
      rw [List.append_assoc]
      exact List.take_left' (toBytesBE_length 8 _)
    have hdrop : ((toBytesBE 8 (F.enc k c).length ++ F.enc k c) ++ encodeAll F k cs).drop 8
        = F.enc k c ++ encodeAll F k cs := by
      rw [List.append_assoc]
      exact List.drop_left' (toBytesBE_length 8 _)
    rw [htake, hdrop, fromBytesBE_toBytesBE 8 _ (hsmall c (by simp))]
    rw [List.take_left' rfl, List.drop_left' rfl]
    simp only [if_neg hene, hrt c (by simp)]
    rw [ih (fun x hx => hrt x (by simp [hx])) (fun x hx => hne x (by simp [hx]))
      (fun x hx => hsmall x (by simp [hx]))]
    simp [joinAll]

/-- Core round-trip fact shared by the round-trip and concrete-scenario
claims: decrypting the container written for `content` restores `content`
and passes the digest verification. -/
theorem decryptContainer_encryptContainer (F : FernetModel) (k : Nat)
    (hash : List Nat → List Nat) (chunkSize : Nat) (content : List Nat)
    (hk : 0 < chunkSize)
    (hrt : ∀ c ∈ chunksOf chunkSize content, F.dec k (F.enc k c) = some c)
    (hne : ∀ c ∈ chunksOf chunkSize content, F.enc k c ≠ [])
    (hsmall : ∀ c ∈ chunksOf chunkSize content, (F.enc k c).length < 256 ^ 8)
    (hhs : (hash content).length < 256 ^ 8) :
    decryptContainer F k hash (encryptContainer F k hash chunkSize content)
      = .ok content := by
  unfold decryptContainer encryptContainer
  have htake : (toBytesBE 8 (hash content).length ++ hash content
      ++ encodeAll F k (chunksOf chunkSize content)).take 8
      = toBytesBE 8 (hash content).length := by
    rw [List.append_assoc]
    exact List.take_left' (toBytesBE_length 8 _)
  have hdrop : (toBytesBE 8 (hash content).length ++ hash content
      ++ encodeAll F k (chunksOf chunkSize content)).drop 8
      = hash content ++ encodeAll F k (chunksOf chunkSize content) := by
    rw [List.append_assoc]
    exact List.drop_left' (toBytesBE_length 8 _)
  rw [htake, hdrop, fromBytesBE_toBytesBE 8 _ hhs]
  rw [List.take_left' rfl, List.drop_left' rfl]
  rw [readLoop_encodeAll F k _ hrt hne hsmall]
  rw [joinAll_chunksOf chunkSize hk content]
  simp

/-- Parsing the header of the container written for `content` yields the
digest embedded by `encrypt_file`, namely the digest of the original
plaintext. -/
theorem encryptContainer_embedded_digest (F : FernetModel) (k : Nat)
    (hash : List Nat → List Nat) (chunkSize : Nat) (content : List Nat)
    (hhs : (hash content).length < 256 ^ 8) :
    ((encryptContainer F k hash chunkSize content).drop 8).take
        (fromBytesBE ((encryptContainer F k hash chunkSize content).take 8))
      = hash content := by
  unfold encryptContainer
  have htake : (toBytesBE 8 (hash content).length ++ hash content
      ++ encodeAll F k (chunksOf chunkSize content)).take 8
      = toBytesBE 8 (hash content).length := by
    rw [List.append_assoc]
    exact List.take_left' (toBytesBE_length 8 _)
  have hdrop : (toBytesBE 8 (hash content).length ++ hash content
      ++ encodeAll F k (chunksOf chunkSize content)).drop 8
      = hash content ++ encodeAll F k (chunksOf chunkSize content) := by
    rw [List.append_assoc]
    exact List.drop_left' (toBytesBE_length 8 _)
  rw [htake, hdrop, fromBytesBE_toBytesBE 8 _ hhs, List.take_left' rfl]

/-- **C1** (round-trip): for every input file content and every key
satisfying the Fernet laws, decrypting the container written by
`encrypt_file` restores the original bytes exactly (`.ok content` means
the concatenation of per-chunk decryptions, in read order, equals the
original file), and the digest embedded in the container header equals the
digest of the decrypted output, so the verification step succeeds. -/
theorem C1_round_trip (F : FernetModel) (k : Nat)
    (hash : List Nat → List Nat) (chunkSize : Nat) (content : List Nat)
    (hk : 0 < chunkSize)
    (hrt : ∀ c ∈ chunksOf chunkSize content, F.dec k (F.enc k c) = some c)
    (hne : ∀ c ∈ chunksOf chunkSize content, F.enc k c ≠ [])
    (hsmall : ∀ c ∈ chunksOf chunkSize content, (F.enc k c).length < 256 ^ 8)
    (hhs : (hash content).length < 256 ^ 8) :
    decryptContainer F k hash (encryptContainer F k hash chunkSize content)
      = .ok content
    ∧ ((encryptContainer F k hash chunkSize content).drop 8).take
        (fromBytesBE ((encryptContainer F k hash chunkSize content).take 8))
      = hash content :=
  ⟨decryptContainer_encryptContainer F k hash chunkSize content hk hrt hne hsmall hhs,
   encryptContainer_embedded_digest F k hash chunkSize content hhs⟩

theorem C1_round_trip_witness :
    0 < 2
    ∧ decryptContainer demoFernet 0 (fun bs => bs)
        (encryptContainer demoFernet 0 (fun bs => bs) 2 [1, 2, 3]) = .ok [1, 2, 3] :=
  ⟨by decide,
   (C1_round_trip demoFernet 0 (fun bs => bs) 2 [1, 2, 3] (by decide)
     (fun c _ => demoFernet_roundTrip 0 c)
     (fun c _ => demoFernet_ctNonEmpty 0 c)
     (fun c hc => by
       have hle := chunksOf_length_le 2 [1, 2, 3] c hc
       simp only [demoFernet, List.length_cons]
       omega)
     (by decide)).1⟩

/-! ## Chunk-count arithmetic (for the concrete 150 MiB scenario) -/

/-- The sizes of the successive reads `infile.read(chunk_size)` performs on
a file of `n` bytes: full `k`-byte blocks followed by the remainder. -/
def chunkSizesAux (k : Nat) : Nat → Nat → List Nat
  | 0, _ => []
  | _ + 1, 0 => []
  | fuel + 1, n => min k n :: chunkSizesAux k fuel (n - k)

def chunkSizes (k n : Nat) : List Nat :=
  chunkSizesAux k n n

theorem chunksOfAux_map_length (k : Nat) (hk : 0 < k) :
    ∀ fuel (s : List Nat), s.length ≤ fuel →
      (chunksOfAux k fuel s).map List.length = chunkSizesAux k fuel s.length := by
  intro fuel
  induction fuel with
  | zero =>
    intro s hs
    have : s = [] := List.length_eq_zero.mp (Nat.le_zero.mp hs)
    subst this
    rfl
  | succ fuel ih =>
    intro s hs
    match s with
    | [] => rfl
    | a :: s =>
      show ((a :: s).take k).length
            :: (chunksOfAux k fuel ((a :: s).drop k)).map List.length
          = min k (s.length + 1) :: chunkSizesAux k fuel (s.length + 1 - k)
      simp only [List.length_cons] at hs
      rw [ih _ (by simp only [List.length_drop, List.length_cons]; omega)]
      simp only [List.length_take, List.length_drop, List.length_cons]

theorem chunksOf_map_length (k : Nat) (hk : 0 < k) (s : List Nat) :
    (chunksOf k s).map List.length = chunkSizes k s.length := by
  unfold chunksOf chunkSizes
  rw [if_neg (by omega)]
  exact chunksOfAux_map_length k hk s.length s le_rfl

/-- **C6** (concrete scenario): encrypting a file of exactly 150 MiB
(157286400 bytes) with the default 64 MiB chunk size produces a container
with exactly 3 chunks whose pre-encryption plaintext sizes are 64 MiB,
64 MiB and 22 MiB in that order, and decrypting that container reproduces
the original content (hence its original digest). -/
theorem C6_concrete_scenario (F : FernetModel) (k : Nat)
    (hash : List Nat → List Nat) (content : List Nat)
    (hlen : content.length = 157286400)
    (hrt : ∀ c ∈ chunksOf 67108864 content, F.dec k (F.enc k c) = some c)
    (hne : ∀ c ∈ chunksOf 67108864 content, F.enc k c ≠ [])
    (hsmall : ∀ c ∈ chunksOf 67108864 content, (F.enc k c).length < 256 ^ 8)
    (hhs : (hash content).length < 256 ^ 8) :
    (chunksOf 67108864 content).map List.length = [67108864, 67108864, 23068672]
    ∧ decryptContainer F k hash (encryptContainer F k hash 67108864 content)
      = .ok content := by
  constructor
  · rw [chunksOf_map_length 67108864 (by norm_num) content, hlen]
    rfl
  · exact decryptContainer_encryptContainer F k hash 67108864 content
      (by norm_num) hrt hne hsmall hhs

theorem C6_concrete_scenario_witness :
    (List.replicate 157286400 0).length = 157286400
    ∧ (chunksOf 67108864 (List.replicate 157286400 0)).map List.length
      = [67108864, 67108864, 23068672] := by
  refine ⟨List.length_replicate 157286400 0, ?_⟩
  exact (C6_concrete_scenario demoFernet 0 (fun bs => bs)
    (List.replicate 157286400 0)
    (List.length_replicate 157286400 0)
    (fun c _ => demoFernet_roundTrip 0 c)
    (fun c _ => demoFernet_ctNonEmpty 0 c)
    (fun c hc => by
      have hle := chunksOf_length_le 67108864 (List.replicate 157286400 0) c hc
      simp only [demoFernet, List.length_cons]
      omega)
    (by simp only [List.length_replicate]; norm_num)).1

/-! ## Content Hasher (`calculate_file_hash`, lines 10-16)

`hashlib.sha256()` is incremental: `update(chunk)` appends the chunk to
the hashed stream and `hexdigest()` returns the digest of everything fed
so far.  The incremental state is therefore the concatenation of the
updates, and `hexdigest` is an abstract function `hashFn` of that
concatenation. -/

/-- `calculate_file_hash(file_path, chunk_size)`: feed the file to the
hasher in reads of at most `chunk_size` bytes, then return the digest of
the accumulated stream. -/
def calculate_file_hash (hashFn : List Nat → List Nat) (content : List Nat)
    (chunk_size : Nat) : List Nat :=
  hashFn ((chunksOf chunk_size content).foldl (fun acc c => acc ++ c) [])

theorem foldl_append_eq_joinAll (cs : List (List Nat)) :
    ∀ init, cs.foldl (fun acc c => acc ++ c) init = init ++ joinAll cs := by
  induction cs with
  | nil => intro init; simp [joinAll]
  | cons c cs ih =>
    intro init
    simp only [List.foldl_cons, joinAll, ih]
    rw [List.append_assoc]

/-- **C7**: for every file content and every positive read size,
`calculate_file_hash` returns the digest of the full content; the result
does not depend on how the content is split into bounded-size reads, so
two independent invocations over identical byte content return the same
value. -/
theorem C7_hash_chunking_invariant (hashFn : List Nat → List Nat)
    (content : List Nat) (cs₁ cs₂ : Nat) (h₁ : 0 < cs₁) (h₂ : 0 < cs₂) :
    calculate_file_hash hashFn content cs₁ = hashFn content
    ∧ calculate_file_hash hashFn content cs₁ = calculate_file_hash hashFn content cs₂ := by
  have key : ∀ cs, 0 < cs → calculate_file_hash hashFn content cs = hashFn content := by
    intro cs hcs
    unfold calculate_file_hash
    rw [foldl_append_eq_joinAll, List.nil_append, joinAll_chunksOf cs hcs]
  exact ⟨key cs₁ h₁, by rw [key cs₁ h₁, key cs₂ h₂]⟩

theorem C7_hash_chunking_invariant_witness :
    0 < 2 ∧ 0 < 5
    ∧ calculate_file_hash (fun bs => bs) [9, 8, 7] 2 = [9, 8, 7] :=
  ⟨by decide, by decide,
   (C7_hash_chunking_invariant (fun bs => bs) [9, 8, 7] 2 5
     (by decide) (by decide)).1⟩

/-! ## Progress Tracker (lines 111-116 and 250-255)

The progress arithmetic is identical in both pipelines:
`speed = processed_size / elapsed_time` and
`estimated_time_remaining = remaining_size / speed if speed > 0 else 0`.
The Python values are floats; the model states the exact field arithmetic
over `ℚ`. -/

/-- The throughput/ETA pair computed at a progress report (from the code). -/
def progressSnapshot (processed file_size elapsed : ℚ) : ℚ × ℚ :=
  (processed / elapsed,
   if processed / elapsed > 0 then (file_size - processed) / (processed / elapsed)
   else 0)

/-- Modelled from the spec: `snapshot(total_size)` returns
throughput = processed/elapsed and ETA = (total_size − processed) /
throughput, with ETA defined as zero when throughput is zero rather than
dividing by zero. -/
def specSnapshot (processed total_size elapsed : ℚ) : ℚ × ℚ :=
  (processed / elapsed,
   if processed / elapsed = 0 then 0
   else (total_size - processed) / (processed / elapsed))

/-- **C8**: at every progress report, throughput is processed bytes over
elapsed time, and the estimated time remaining is remaining bytes over
throughput except that a zero throughput yields a zero ETA (no division
by zero); i.e. the code's snapshot coincides with the spec's, and when
throughput is positive the ETA satisfies `eta * throughput = remaining`. -/
theorem C8_progress_snapshot (processed file_size elapsed : ℚ)
    (hp : 0 ≤ processed) (he : 0 ≤ elapsed) :
    progressSnapshot processed file_size elapsed
      = specSnapshot processed file_size elapsed
    ∧ (0 < processed / elapsed →
        (progressSnapshot processed file_size elapsed).2 * (processed / elapsed)
          = file_size - processed)
    ∧ (processed / elapsed = 0 →
        (progressSnapshot processed file_size elapsed).2 = 0) := by
  have hs : 0 ≤ processed / elapsed := div_nonneg hp he
  refine ⟨?_, ?_, ?_⟩
  · by_cases hz : processed / elapsed = 0
    · simp [progressSnapshot, specSnapshot, hz]
    · have hpos : 0 < processed / elapsed := lt_of_le_of_ne hs (Ne.symm hz)
      simp [progressSnapshot, specSnapshot, hz, hpos]
  · intro h
    simp only [progressSnapshot, if_pos h]
    exact div_mul_cancel₀ _ (ne_of_gt h)
  · intro h
    simp [progressSnapshot, h]

theorem C8_progress_snapshot_witness :
    (0 : ℚ) ≤ 10 ∧ (0 : ℚ) ≤ 2
    ∧ progressSnapshot 10 100 2 = specSnapshot 10 100 2 :=
  ⟨by norm_num, by norm_num, (C8_progress_snapshot 10 100 2 (by norm_num) (by norm_num)).1⟩

/-! ## Sidecar metadata wire format (lines 141-143 and 199-203)

Writing: `meta_file.write(f"{key}: {value}\n")` for each entry, in order.
Reading: for each line of the file, `line.strip().split(': ', 1)`;
a line without `': '` after stripping makes the unpacking
`key, value = ...` raise `ValueError`.  Strings are `List Char`. -/

/-- The characters Python's `str.strip()` removes: exactly those with
`str.isspace()` true — the ASCII whitespace and separators U+0009-U+000D,
U+001C-U+001F and U+0020, plus NEL, NBSP and the Unicode space and line
separators (Zs/Zl/Zp: U+1680, U+2000-U+200A, U+2028, U+2029, U+202F,
U+205F, U+3000). -/
def isPySpace (c : Char) : Bool :=
  c = ' ' || c = '\t' || c = '\n' || c = '\u000b' || c = '\u000c' || c = '\r'
  || c = '\u001c' || c = '\u001d' || c = '\u001e' || c = '\u001f'
  || c = '\u0085' || c = '\u00a0' || c = '\u1680'
  || ('\u2000' ≤ c && c ≤ '\u200a')
  || c = '\u2028' || c = '\u2029' || c = '\u202f' || c = '\u205f' || c = '\u3000'

/-- `s.strip()`: remove leading and trailing whitespace. -/
def pyStrip (s : List Char) : List Char :=
  ((s.dropWhile isPySpace).reverse.dropWhile isPySpace).reverse

/-- `s.split(sep, 1)` for a non-empty `sep`, reported as `some (pre, post)`
when `sep` occurs (split at its first occurrence) and `none` when it does
not (in which case the code's tuple unpacking raises `ValueError`). -/
def splitOnFirst (sep : List Char) : List Char → Option (List Char × List Char)
  | [] => none
  | c :: rest =>
    if sep.isPrefixOf (c :: rest) then some ([], (c :: rest).drop sep.length)
    else
      match splitOnFirst sep rest with
      | some (pre, post) => some (c :: pre, post)
      | none => none

/-- Split a text into the pieces between newline characters (a trailing
empty piece corresponds to a final terminating newline). -/
def splitOnNL : List Char → List (List Char)
  | [] => [[]]
  | a :: rest =>
    if a = '\n' then [] :: splitOnNL rest
    else
      match splitOnNL rest with
      | p :: ps => (a :: p) :: ps
      | [] => [[a]]

/-- Universal-newline translation performed by reading a file in text
mode: `'\r\n'` and a lone `'\r'` both become `'\n'`. -/
def univNL : List Char → List Char
  | [] => []
  | '\r' :: '\n' :: rest => '\n' :: univNL rest
  | '\r' :: rest => '\n' :: univNL rest
  | c :: rest => c :: univNL rest

/-- Iterating over a Python text file yields one item per line of the
newline-translated text; a final terminating newline does not produce an
extra empty line. -/
def pyLines (s : List Char) : List (List Char) :=
  if (splitOnNL (univNL s)).getLast? = some [] then (splitOnNL (univNL s)).dropLast
  else splitOnNL (univNL s)

/-- The bytes `encrypt_file`/`decrypt_file` write for a metadata mapping:
one `key: value` line per entry, in order. -/
def serializeMeta (entries : List (List Char × List Char)) : List Char :=
  (entries.map (fun kv => kv.1 ++ [':', ' '] ++ kv.2 ++ ['\n'])).flatten

/-- The per-line parse loop of `decrypt_file`: strip each line, split on
the first `': '`, and record the pairs in order (the code stores them into
a dict keyed by the first component). -/
def parseLines : List (List Char) → Except Unit (List (List Char × List Char))
  | [] => .ok []
  | line :: rest =>
    match splitOnFirst [':', ' '] (pyStrip line) with
    | none => .error ()
    | some kv =>
      match parseLines rest with
      | .ok ms => .ok (kv :: ms)
      | .error e => .error e

def parseMeta (s : List Char) : Except Unit (List (List Char × List Char)) :=
  parseLines (pyLines s)

/-- `true` iff the string is empty or starts with a non-whitespace
character, i.e. `str.strip()` removes nothing from this end. -/
def headNotSpace (s : List Char) : Bool :=
  match s with
  | [] => true
  | c :: _ => !(isPySpace c)

/-- Does `pat` occur as a contiguous run inside `s`? (`pat in s`). -/
def containsRun (pat : List Char) : List Char → Bool
  | [] => pat.isEmpty
  | c :: rest => pat.isPrefixOf (c :: rest) || containsRun pat rest

theorem dropWhile_eq_self_of_headNotSpace (s : List Char)
    (h : headNotSpace s = true) : s.dropWhile isPySpace = s := by
  cases s with
  | nil => rfl
  | cons c s =>
    simp only [headNotSpace, Bool.not_eq_true'] at h
    simp [List.dropWhile_cons, h]

theorem pyStrip_eq_self (s : List Char) (h1 : headNotSpace s = true)
    (h2 : headNotSpace s.reverse = true) : pyStrip s = s := by
  unfold pyStrip
  rw [dropWhile_eq_self_of_headNotSpace s h1,
    dropWhile_eq_self_of_headNotSpace s.reverse h2, List.reverse_reverse]

theorem splitOnFirst_key_value (v : List Char) :
    ∀ k : List Char, containsRun [':', ' '] k = false →
      splitOnFirst [':', ' '] (k ++ [':', ' '] ++ v) = some (k, v) := by
  intro k
  induction k with
  | nil =>
    intro _
    show splitOnFirst [':', ' '] (':' :: ' ' :: v) = some ([], v)
    have hpre : [':', ' '].isPrefixOf (':' :: ' ' :: v) = true := by
      simp [List.isPrefixOf]
    simp [splitOnFirst, hpre]
  | cons c k' ih =>
    intro hk
    have hk' : [':', ' '].isPrefixOf (c :: k') = false
        ∧ containsRun [':', ' '] k' = false := by
      simpa [containsRun, Bool.or_eq_false_iff] using hk
    have hnp : [':', ' '].isPrefixOf (c :: (k' ++ [':', ' '] ++ v)) = false := by
      by_cases hc : c = ':'
      · subst hc
        cases k' with
        | nil => rfl
        | cons d k'' =>
          by_cases hd : d = ' '
          · subst hd
            exfalso
            have hpre : [':', ' '].isPrefixOf (':' :: ' ' :: k'') = true := by
              simp [List.isPrefixOf]
            rw [hpre] at hk'
            exact absurd hk'.1 (by decide)
          · have hdb : (' ' == d) = false := beq_eq_false_iff_ne.mpr (Ne.symm hd)
            simp [List.isPrefixOf, hdb]
      · have hcb : (':' == c) = false := beq_eq_false_iff_ne.mpr (Ne.symm hc)
        simp [List.isPrefixOf, hcb]
    show splitOnFirst [':', ' '] (c :: (k' ++ [':', ' '] ++ v)) = some (c :: k', v)
    rw [splitOnFirst, if_neg (fun hcc => absurd (hnp ▸ hcc) (by decide)), ih hk'.2]

theorem splitOnNL_line (x rest : List Char) (hx : '\n' ∉ x) :
    splitOnNL (x ++ '\n' :: rest) = x :: splitOnNL rest := by
  induction x with
  | nil => simp [splitOnNL]
  | cons c x ih =>
    have hc : ¬(c = '\n') := by
      intro h
      exact hx (by simp [h])
    have hx' : '\n' ∉ x := fun h => hx (List.mem_cons_of_mem _ h)
    show splitOnNL (c :: (x ++ '\n' :: rest)) = (c :: x) :: splitOnNL rest
    rw [splitOnNL, if_neg hc, ih hx']

theorem splitOnNL_serialized (entries : List (List Char × List Char))
    (h : ∀ kv ∈ entries, '\n' ∉ kv.1 ∧ '\n' ∉ kv.2) :
    splitOnNL (serializeMeta entries)
      = entries.map (fun kv => kv.1 ++ [':', ' '] ++ kv.2) ++ [[]] := by
  induction entries with
  | nil => rfl
  | cons kv entries ih =>
    have hkv := h kv (by simp)
    have hline : '\n' ∉ kv.1 ++ [':', ' '] ++ kv.2 := by
      intro hm
      rcases List.mem_append.mp hm with hm | hm
      · rcases List.mem_append.mp hm with hm | hm
        · exact hkv.1 hm
        · simp at hm
      · exact hkv.2 hm
    have hser : serializeMeta (kv :: entries)
        = (kv.1 ++ [':', ' '] ++ kv.2) ++ '\n' :: serializeMeta entries := by
      simp [serializeMeta, List.append_assoc]
    rw [hser, splitOnNL_line _ _ hline, ih (fun x hx => h x (by simp [hx]))]
    simp

theorem univNL_eq_self (s : List Char) (h : '\r' ∉ s) : univNL s = s := by
  induction s with
  | nil => rfl
  | cons c rest ih =>
    have hc : ¬(c = '\r') := fun hcc => h (by simp [hcc])
    have hr : '\r' ∉ rest := fun hm => h (List.mem_cons_of_mem _ hm)
    simp [univNL, hc, ih hr]

theorem serializeMeta_no_cr (entries : List (List Char × List Char))
    (h : ∀ kv ∈ entries, '\r' ∉ kv.1 ∧ '\r' ∉ kv.2) :
    '\r' ∉ serializeMeta entries := by
  induction entries with
  | nil => simp [serializeMeta]
  | cons kv entries ih =>
    have hkv := h kv (by simp)
    have hser : serializeMeta (kv :: entries)
        = (kv.1 ++ [':', ' '] ++ kv.2) ++ '\n' :: serializeMeta entries := by
      simp [serializeMeta, List.append_assoc]
    rw [hser]
    intro hm
    rcases List.mem_append.mp hm with hm | hm
    · rcases List.mem_append.mp hm with hm | hm
      · rcases List.mem_append.mp hm with hm | hm
        · exact hkv.1 hm
        · simp at hm
      · exact hkv.2 hm
    · rcases List.mem_cons.mp hm with hm | hm
      · simp at hm
      · exact ih (fun x hx => h x (by simp [hx])) hm

theorem pyLines_serialized (entries : List (List Char × List Char))
    (h : ∀ kv ∈ entries, '\n' ∉ kv.1 ∧ '\n' ∉ kv.2)
    (hcr : ∀ kv ∈ entries, '\r' ∉ kv.1 ∧ '\r' ∉ kv.2) :
    pyLines (serializeMeta entries)
      = entries.map (fun kv => kv.1 ++ [':', ' '] ++ kv.2) := by
  unfold pyLines
  rw [univNL_eq_self _ (serializeMeta_no_cr entries hcr),
    splitOnNL_serialized entries h, List.getLast?_concat, if_pos rfl,
    List.dropLast_concat]

/-- Keys that survive the `line.strip().split(': ', 1)` read-back: no
newline and no carriage return (either would split the line when the file
is read back in text mode), no `': '` inside the key, and no leading
`str.strip()` whitespace. -/
def GoodKey (k : List Char) : Prop :=
  '\n' ∉ k ∧ '\r' ∉ k ∧ containsRun [':', ' '] k = false
    ∧ headNotSpace k = true

/-- Values that survive the read-back: no newline and no carriage return,
non-empty (an empty value leaves no `': '` in the stripped line, so the
unpacking raises `ValueError`), and no trailing `str.strip()`
whitespace. -/
def GoodVal (v : List Char) : Prop :=
  '\n' ∉ v ∧ '\r' ∉ v ∧ v ≠ [] ∧ headNotSpace v.reverse = true

instance (k : List Char) : Decidable (GoodKey k) := by
  unfold GoodKey
  infer_instance

instance (v : List Char) : Decidable (GoodVal v) := by
  unfold GoodVal
  infer_instance

theorem parseLines_mapped (entries : List (List Char × List Char))
    (h : ∀ kv ∈ entries, GoodKey kv.1 ∧ GoodVal kv.2) :
    parseLines (entries.map (fun kv => kv.1 ++ [':', ' '] ++ kv.2))
      = .ok entries := by
  induction entries with
  | nil => rfl
  | cons kv entries ih =>
    obtain ⟨hK, hV⟩ := h kv (by simp)
    have hstrip : pyStrip (kv.1 ++ [':', ' '] ++ kv.2)
        = kv.1 ++ [':', ' '] ++ kv.2 := by
      apply pyStrip_eq_self
      · cases hk1 : kv.1 with
        | nil =>
          show headNotSpace (':' :: (' ' :: kv.2)) = true
          have hcolon : isPySpace ':' = false := by decide
          simp [headNotSpace, hcolon]
        | cons c k' =>
          have := hK.2.2.2
          rw [hk1] at this
          simpa [headNotSpace] using this
      · have hrne : kv.2.reverse ≠ [] :=
          fun hr => hV.2.2.1 (List.reverse_eq_nil_iff.mp hr)
        obtain ⟨e, t, het⟩ := List.exists_cons_of_ne_nil hrne
        have hrev : (kv.1 ++ [':', ' '] ++ kv.2).reverse
            = e :: (t ++ ([' ', ':'] ++ kv.1.reverse)) := by
          rw [List.reverse_append, List.reverse_append, het]
          simp
        have := hV.2.2.2
        rw [het] at this
        rw [hrev]
        simpa [headNotSpace] using this
    show (match splitOnFirst [':', ' '] (pyStrip (kv.1 ++ [':', ' '] ++ kv.2)) with
          | none => Except.error ()
          | some kv' =>
            match parseLines (entries.map (fun kv => kv.1 ++ [':', ' '] ++ kv.2)) with
            | .ok ms => Except.ok (kv' :: ms)
            | .error e => Except.error e)
        = Except.ok (kv :: entries)
    rw [hstrip, splitOnFirst_key_value kv.2 kv.1 hK.2.2.1,
      ih (fun x hx => h x (by simp [hx]))]

/-- **C9** counterexample: the claim as stated is false.  The key `"k"`
contains neither a newline nor `': '`, the value `"v "` contains no
newline, yet serializing and parsing back yields the entry
`("k", "v")` — the trailing space of the value is eaten by
`line.strip()` — not the original `("k", "v ")`. -/
theorem C9_sidecar_counterexample :
    parseMeta (serializeMeta [([ 'k' ], [ 'v', ' ' ])])
      = .ok [([ 'k' ], [ 'v' ])]
    ∧ ([([ 'k' ], [ 'v' ])] : List (List Char × List Char))
      ≠ [([ 'k' ], [ 'v', ' ' ])] := by
  constructor
  · rfl
  · decide

/-- Shared round-trip fact for the sidecar wire format. -/
theorem parseMeta_serializeMeta_ok (entries : List (List Char × List Char))
    (h : ∀ kv ∈ entries, GoodKey kv.1 ∧ GoodVal kv.2) :
    parseMeta (serializeMeta entries) = .ok entries := by
  unfold parseMeta
  rw [pyLines_serialized entries
    (fun kv hkv => ⟨(h kv hkv).1.1, (h kv hkv).2.1⟩)
    (fun kv hkv => ⟨(h kv hkv).1.2.1, (h kv hkv).2.2.1⟩)]
  exact parseLines_mapped entries h

/-- **C9** (amended): for every mapping whose keys contain no newline or
carriage return, no `': '`, and no leading `str.strip()` whitespace, and
whose values contain no newline or carriage return, are non-empty and do
not end in a `str.strip()` whitespace character, serializing as
`key: value` lines and parsing back (newline-translated read, strip each
line, split on the first `': '`) recovers exactly the original entries —
including values that themselves contain `': '`. -/
theorem C9_sidecar_round_trip (entries : List (List Char × List Char))
    (h : ∀ kv ∈ entries, GoodKey kv.1 ∧ GoodVal kv.2) :
    parseMeta (serializeMeta entries) = .ok entries :=
  parseMeta_serializeMeta_ok entries h

theorem C9_sidecar_round_trip_witness :
    (∀ kv ∈ [("original_filename".toList, "backup: 2024.sql".toList)],
      GoodKey kv.1 ∧ GoodVal kv.2)
    ∧ parseMeta (serializeMeta
        [("original_filename".toList, "backup: 2024.sql".toList)])
      = .ok [("original_filename".toList, "backup: 2024.sql".toList)] :=
  ⟨by decide, C9_sidecar_round_trip _ (by decide)⟩

/-! ## Path naming (`pathlib.Path.with_suffix`, `str.replace`)

Paths are modelled as an opaque directory identifier plus a file name
(`with_suffix` and `parent / name` never change the directory). -/

/-- `Path(name).suffix`: the part of the name from the last `'.'`, unless
that dot is the first or last character of the name. -/
def pySuffix (name : List Char) : List Char :=
  if 0 < (name.reverse.takeWhile (fun c => !(c = '.'))).length
      ∧ (name.reverse.takeWhile (fun c => !(c = '.'))).length + 1 < name.length
  then '.' :: (name.reverse.takeWhile (fun c => !(c = '.'))).reverse
  else []

/-- `Path(name).with_suffix(suffix)`: replace the final suffix, or append
`suffix` when the name has none. -/
def withSuffix (name suffix : List Char) : List Char :=
  if pySuffix name = [] then name ++ suffix
  else name.take (name.length - (pySuffix name).length) ++ suffix

/-- `s.replace(old, new)` for a non-empty `old`: replace every
(left-to-right, non-overlapping) occurrence. -/
def replaceAllAux (old new : List Char) : Nat → List Char → List Char
  | 0, s => s
  | _ + 1, [] => []
  | fuel + 1, c :: rest =>
    if old ≠ [] ∧ old.isPrefixOf (c :: rest)
    then new ++ replaceAllAux old new fuel (rest.drop (old.length - 1))
    else c :: replaceAllAux old new fuel rest

def replaceAll (old new s : List Char) : List Char :=
  replaceAllAux old new s.length s

structure MPath where
  dir : Nat
  base : List Char
deriving DecidableEq

/-- `p.with_suffix(suffix)` keeps the parent directory. -/
def MPath.withSuffixP (p : MPath) (suffix : List Char) : MPath :=
  ⟨p.dir, withSuffix p.base suffix⟩

/-- Line 79: `encrypted_path = file_path.with_suffix('.sql.encrypted')`. -/
def encryptedPathOf (p : MPath) : MPath :=
  p.withSuffixP ".sql.encrypted".toList

/-- Line 140: `metadata_path = encrypted_path.with_suffix('.metadata')`
(the sidecar written by `encrypt_file`). -/
def encMetadataPathOf (p : MPath) : MPath :=
  (encryptedPathOf p).withSuffixP ".metadata".toList

/-- Line 197: `metadata_path = file_path.with_suffix('.metadata')` where
`file_path` is the container handed to `decrypt_file` (the sidecar it
looks for). -/
def decMetadataLookupPathOf (container : MPath) : MPath :=
  container.withSuffixP ".metadata".toList

/-- Lines 206-209: the restored file is named
`decrypted_{metadata['original_filename']}` in the container's directory
when the sidecar was found, and otherwise falls back to
`str(file_path).replace('.encrypted', '.decrypted')` (modelled on the
file name; the opaque directory is unchanged, which matches the code
whenever the directory part contains no `'.encrypted'`). -/
def decOutputPathOf (container : MPath) (sidecarName : Option (List Char)) :
    MPath :=
  match sidecarName with
  | some orig => ⟨container.dir, "decrypted_".toList ++ orig⟩
  | none =>
    ⟨container.dir, replaceAll ".encrypted".toList ".decrypted".toList container.base⟩

/-- Lines 130-137: the metadata record written by `encrypt_file`, with
`original_filename` first; the other values (sizes, digests, timestamps)
are opaque strings here. -/
def encMetaEntries (origName sizeStr hashStr ehashStr dateStr timeStr : List Char) :
    List (List Char × List Char) :=
  [("original_filename".toList, origName),
   ("original_size".toList, sizeStr),
   ("original_hash".toList, hashStr),
   ("encrypted_hash".toList, ehashStr),
   ("encryption_date".toList, dateStr),
   ("encryption_time".toList, timeStr)]

/-- `metadata['original_filename']`: the keys written are distinct, so the
dict lookup is the first entry with the key. -/
def lookupMeta (entries : List (List Char × List Char)) (key : List Char) :
    Option (List Char) :=
  (entries.find? (fun kv => kv.1 = key)).map (fun kv => kv.2)

/-- **C10** counterexample: the claim as stated (universal over every
input path) is false.  For the input file name `"backup.sql "` — with a
trailing space — the sidecar written by `encrypt_file` parses back with
the `original_filename` value *stripped* to `"backup.sql"`, so
`decrypt_file` names the restored file `decrypted_backup.sql`, not
`'decrypted_'` prepended to the original file name. -/
theorem C10_sidecar_naming_counterexample :
    parseMeta (serializeMeta (encMetaEntries "backup.sql ".toList "1".toList
        "a".toList "b".toList "c".toList "d".toList))
      = .ok (encMetaEntries "backup.sql".toList "1".toList
        "a".toList "b".toList "c".toList "d".toList)
    ∧ ("backup.sql".toList : List Char) ≠ "backup.sql ".toList := by
  constructor
  · rfl
  · decide

/-- **C10** (amended): for every input path whose file name round-trips
through the sidecar (non-empty, no newline or carriage return, not ending
in a `str.strip()` whitespace character), the sidecar naming of the two
pipelines agrees — the path where `decrypt_file` looks for the sidecar of
the container `input.with_suffix('.sql.encrypted')` is exactly the path
where `encrypt_file` wrote it; the sidecar written for the input parses
back and its `original_filename` entry recovers the input's file name;
the restored file is `'decrypted_' + original_filename` in the
container's directory; and only when the sidecar is absent does the name
fall back to replacing `'.encrypted'` with `'.decrypted'`. -/
theorem C10_sidecar_naming (p : MPath)
    (sizeStr hashStr ehashStr dateStr timeStr : List Char)
    (hname : GoodVal p.base)
    (h₁ : GoodVal sizeStr) (h₂ : GoodVal hashStr) (h₃ : GoodVal ehashStr)
    (h₄ : GoodVal dateStr) (h₅ : GoodVal timeStr) :
    decMetadataLookupPathOf (encryptedPathOf p) = encMetadataPathOf p
    ∧ parseMeta (serializeMeta
        (encMetaEntries p.base sizeStr hashStr ehashStr dateStr timeStr))
      = .ok (encMetaEntries p.base sizeStr hashStr ehashStr dateStr timeStr)
    ∧ lookupMeta (encMetaEntries p.base sizeStr hashStr ehashStr dateStr timeStr)
        "original_filename".toList = some p.base
    ∧ decOutputPathOf (encryptedPathOf p) (some p.base)
      = ⟨p.dir, "decrypted_".toList ++ p.base⟩
    ∧ decOutputPathOf (encryptedPathOf p) none
      = ⟨p.dir, replaceAll ".encrypted".toList ".decrypted".toList
          (encryptedPathOf p).base⟩ := by
  refine ⟨rfl, ?_, ?_, rfl, rfl⟩
  · apply parseMeta_serializeMeta_ok
    intro kv hkv
    simp only [encMetaEntries, List.mem_cons, List.not_mem_nil, or_false] at hkv
    rcases hkv with h | h | h | h | h | h <;> subst h
    · exact ⟨show GoodKey ("original_filename".toList) by decide, hname⟩
    · exact ⟨show GoodKey ("original_size".toList) by decide, h₁⟩
    · exact ⟨show GoodKey ("original_hash".toList) by decide, h₂⟩
    · exact ⟨show GoodKey ("encrypted_hash".toList) by decide, h₃⟩
    · exact ⟨show GoodKey ("encryption_date".toList) by decide, h₄⟩
    · exact ⟨show GoodKey ("encryption_time".toList) by decide, h₅⟩
  · simp [lookupMeta, encMetaEntries]

theorem C10_sidecar_naming_witness :
    GoodVal ("backup.sql".toList)
    ∧ decMetadataLookupPathOf (encryptedPathOf ⟨0, "backup.sql".toList⟩)
      = encMetadataPathOf ⟨0, "backup.sql".toList⟩
    ∧ lookupMeta (encMetaEntries "backup.sql".toList "157286400".toList
        "aa".toList "bb".toList "2024-01-01".toList "12.5".toList)
        "original_filename".toList = some ("backup.sql".toList) :=
  ⟨by decide,
   (C10_sidecar_naming ⟨0, "backup.sql".toList⟩ "157286400".toList "aa".toList
     "bb".toList "2024-01-01".toList "12.5".toList (by decide) (by decide)
     (by decide) (by decide) (by decide) (by decide)).1,
   (C10_sidecar_naming ⟨0, "backup.sql".toList⟩ "157286400".toList "aa".toList
     "bb".toList "2024-01-01".toList "12.5".toList (by decide) (by decide)
     (by decide) (by decide) (by decide) (by decide)).2.2.1⟩

/-! ## Encryption Pipeline with failure cleanup (`encrypt_file`, lines 81-167)

The filesystem effects of one `encrypt_file` run on the three files it
touches.  A failure is injected at one of the points where the Python code
can raise; the `except` handler (lines 159-167) then unlinks the container
and the metadata sidecar if they exist, and re-raises (`success = false`).
The original file is removed (line 146) only after the metadata file has
been fully written (lines 141-143). -/

structure EncFS where
  /-- the plaintext input `file_path` -/
  original : Option (List Nat)
  /-- the container `encrypted_path` -/
  container : Option (List Nat)
  /-- the sidecar `metadata_path` (as its list of entries) -/
  sidecar : Option (List (List Char × List Char))
deriving DecidableEq

/-- Points at which an exception can be raised inside `encrypt_file`'s
`try` block. -/
inductive EncFail where
  /-- during `stat`/`calculate_file_hash` of the input, before the
  container file is opened (lines 83-88) -/
  | beforeOpen
  /-- during the streaming loop, after `j` chunk records have been
  written (lines 95-124) -/
  | duringStream (j : Nat)
  /-- during `calculate_file_hash(encrypted_path)` (line 127) -/
  | atContainerHash
  /-- while writing the metadata sidecar, after `j` lines (lines 141-143) -/
  | duringMetaWrite (j : Nat)
  /-- during `os.remove(file_path)` (line 146) -/
  | atRemoveOriginal
  /-- during the completion logging, after the original was removed
  (lines 149-155) -/
  | afterRemoval
deriving DecidableEq

/-- The `except Exception` handler, lines 159-167: unlink the container
and the sidecar when they exist. -/
def encCleanup (fs : EncFS) : EncFS :=
  { fs with container := none, sidecar := none }

/-- One `encrypt_file` run on input `content`, writing metadata entries
`meta`, with an optional injected failure; returns the final filesystem
and whether the run succeeded. -/
def encrypt_file (F : FernetModel) (k : Nat) (hash : List Nat → List Nat)
    (chunkSize : Nat) (content : List Nat)
    (meta : List (List Char × List Char)) (fail : Option EncFail) :
    EncFS × Bool :=
  let fs0 : EncFS := ⟨some content, none, none⟩
  if fail = some .beforeOpen then (encCleanup fs0, false)
  else
    let header := toBytesBE 8 (hash content).length ++ hash content
    let recs := (chunksOf chunkSize content).map (encodeChunk F k)
    match fail with
    | some (.duringStream j) =>
      (encCleanup { fs0 with container := some (header ++ joinAll (recs.take j)) },
       false)
    | _ =>
      let fs1 := { fs0 with
        container := some (encryptContainer F k hash chunkSize content) }
      match fail with
      | some .atContainerHash => (encCleanup fs1, false)
      | _ =>
        match fail with
        | some (.duringMetaWrite j) =>
          (encCleanup { fs1 with sidecar := some (meta.take j) }, false)
        | _ =>
          let fs2 := { fs1 with sidecar := some meta }
          match fail with
          | some .atRemoveOriginal => (encCleanup fs2, false)
          | _ =>
            let fs3 := { fs2 with original := none }
            match fail with
            | some .afterRemoval => (encCleanup fs3, false)
            | _ => (fs3, true)

/-- The failure points covered by the claim: after the container file has
been opened, during streaming encryption or metadata finalization (which
ends with the removal of the original). -/
def EncFail.inScope : EncFail → Prop
  | .duringStream _ => True
  | .atContainerHash => True
  | .duringMetaWrite _ => True
  | .atRemoveOriginal => True
  | _ => False

instance (fp : EncFail) : Decidable fp.inScope := by
  cases fp <;> simp [EncFail.inScope] <;> infer_instance

/-- **C3**: for every failure raised inside `encrypt_file` after the
container has been opened (streaming encryption or metadata
finalization), the handler deletes the partially written container and
the partially written sidecar and the run fails, while the original
plaintext is still on disk — and on the success path the original is
removed only after the sidecar holds the complete metadata. -/
theorem C3_encrypt_cleanup (F : FernetModel) (k : Nat)
    (hash : List Nat → List Nat) (chunkSize : Nat) (content : List Nat)
    (meta : List (List Char × List Char)) (fp : EncFail) (hfp : fp.inScope) :
    encrypt_file F k hash chunkSize content meta (some fp)
      = (⟨some content, none, none⟩, false)
    ∧ encrypt_file F k hash chunkSize content meta none
      = (⟨none, some (encryptContainer F k hash chunkSize content), some meta⟩,
         true) := by
  constructor
  · cases fp with
    | beforeOpen => exact absurd hfp (by simp [EncFail.inScope])
    | duringStream j => rfl
    | atContainerHash => rfl
    | duringMetaWrite j => rfl
    | atRemoveOriginal => rfl
    | afterRemoval => exact absurd hfp (by simp [EncFail.inScope])
  · rfl

theorem C3_encrypt_cleanup_witness :
    (EncFail.atContainerHash).inScope
    ∧ encrypt_file demoFernet 0 (fun bs => bs) 2 [1, 2, 3] [] (some .atContainerHash)
      = (⟨some [1, 2, 3], none, none⟩, false) :=
  ⟨trivial,
   (C3_encrypt_cleanup demoFernet 0 (fun bs => bs) 2 [1, 2, 3] [] .atContainerHash
     trivial).1⟩

/-! ## Decryption Pipeline with failure cleanup (`decrypt_file`, lines 211-312)

Filesystem effects of one `decrypt_file` run.  The output file receives
every decrypted chunk as it is produced; on any exception the `except`
handler (lines 304-312) unlinks the output file and the decryption
metadata sidecar if they exist, and re-raises.  On success the container
and its encryption sidecar are removed (lines 289-291). -/

structure DecFS where
  /-- the container `file_path` -/
  container : Option (List Nat)
  /-- the encryption sidecar `metadata_path`, when present -/
  encSidecar : Option (List (List Char × List Char))
  /-- the restored plaintext `decrypted_path` -/
  output : Option (List Nat)
  /-- the sidecar `decryption_metadata_path` -/
  decSidecar : Option (List (List Char × List Char))
deriving DecidableEq

/-- The `except Exception` handler, lines 304-312. -/
def decCleanup (fs : DecFS) : DecFS :=
  { fs with output := none, decSidecar := none }

/-- One `decrypt_file` run on container bytes `C`: parse the header, run
the chunk loop (writing each decrypted chunk to the output file), verify
the digest, write the decryption metadata, and remove the container and
its sidecar; on any error, clean up and report the error. -/
def decrypt_file (F : FernetModel) (k : Nat) (hash : List Nat → List Nat)
    (C : List Nat) (encMeta : Option (List (List Char × List Char)))
    (decMeta : List (List Char × List Char)) : DecFS × Except DecErr Unit :=
  let fs0 : DecFS := ⟨some C, encMeta, none, none⟩
  let origHash := (C.drop 8).take (fromBytesBE (C.take 8))
  let r := readLoop F k ((C.drop 8).drop (fromBytesBE (C.take 8)))
  let fs1 := { fs0 with output := some r.1 }
  match r.2 with
  | some e => (decCleanup fs1, .error e)
  | none =>
    if hash r.1 = origHash then
      ({ fs1 with
          decSidecar := some decMeta, container := none, encSidecar := none },
       .ok ())
    else (decCleanup fs1, .error .hashMismatch)

/-- **C4**: whenever the chunk stream is exhausted cleanly but the digest
of the written output differs from the digest parsed from the header, the
run fails with the digest-verification error and the failure path deletes
the partially written output file and the decryption-metadata sidecar, so
no untrusted restored file remains on disk (the container itself is left
in place). -/
theorem C4_digest_mismatch_cleanup (F : FernetModel) (k : Nat)
    (hash : List Nat → List Nat) (C : List Nat)
    (encMeta : Option (List (List Char × List Char)))
    (decMeta : List (List Char × List Char)) (out : List Nat)
    (hok : readLoop F k ((C.drop 8).drop (fromBytesBE (C.take 8))) = (out, none))
    (hmm : hash out ≠ (C.drop 8).take (fromBytesBE (C.take 8))) :
    decrypt_file F k hash C encMeta decMeta
      = (⟨some C, encMeta, none, none⟩, .error .hashMismatch) := by
  unfold decrypt_file
  rw [hok]
  simp only [if_neg hmm]
  rfl

theorem C4_digest_mismatch_cleanup_witness :
    readLoop demoFernet 0
        ((([0, 0, 0, 0, 0, 0, 0, 1, 7] ++ encodeChunk demoFernet 0 [5]).drop 8).drop
          (fromBytesBE (([0, 0, 0, 0, 0, 0, 0, 1, 7]
            ++ encodeChunk demoFernet 0 [5]).take 8)))
      = ([5], none)
    ∧ decrypt_file demoFernet 0 (fun bs => bs)
        ([0, 0, 0, 0, 0, 0, 0, 1, 7] ++ encodeChunk demoFernet 0 [5]) none []
      = (⟨some ([0, 0, 0, 0, 0, 0, 0, 1, 7] ++ encodeChunk demoFernet 0 [5]),
          none, none, none⟩, .error .hashMismatch) :=
  ⟨by decide,
   C4_digest_mismatch_cleanup demoFernet 0 (fun bs => bs)
     ([0, 0, 0, 0, 0, 0, 0, 1, 7] ++ encodeChunk demoFernet 0 [5]) none [] [5]
     (by decide) (by decide)⟩

/-- Parsing the header of a written container leaves exactly the encoded
chunk stream for the chunk loop. -/
theorem encryptContainer_parse (F : FernetModel) (k : Nat)
    (hash : List Nat → List Nat) (chunkSize : Nat) (content : List Nat)
    (hhs : (hash content).length < 256 ^ 8) :
    ((encryptContainer F k hash chunkSize content).drop 8).drop
        (fromBytesBE ((encryptContainer F k hash chunkSize content).take 8))
      = encodeAll F k (chunksOf chunkSize content) := by
  unfold encryptContainer
  have htake : (toBytesBE 8 (hash content).length ++ hash content
      ++ encodeAll F k (chunksOf chunkSize content)).take 8
      = toBytesBE 8 (hash content).length := by
    rw [List.append_assoc]
    exact List.take_left' (toBytesBE_length 8 _)
  have hdrop : (toBytesBE 8 (hash content).length ++ hash content
      ++ encodeAll F k (chunksOf chunkSize content)).drop 8
      = hash content ++ encodeAll F k (chunksOf chunkSize content) := by
    rw [List.append_assoc]
    exact List.drop_left' (toBytesBE_length 8 _)
  rw [htake, hdrop, fromBytesBE_toBytesBE 8 _ hhs, List.drop_left' rfl]

/-- Reading an encoded chunk stream under a key whose decryption rejects
the first chunk fails immediately, with nothing written to the output. -/
theorem readLoop_first_chunk_reject (F : FernetModel) (k₁ k₂ : Nat)
    (c : List Nat) (cs : List (List Nat))
    (hka : F.dec k₂ (F.enc k₁ c) = none)
    (hne : F.enc k₁ c ≠ [])
    (hsmall : (F.enc k₁ c).length < 256 ^ 8) :
    readLoop F k₂ (encodeAll F k₁ (c :: cs)) = ([], some .integrity) := by
  have hstream : encodeAll F k₁ (c :: cs)
      = (toBytesBE 8 (F.enc k₁ c).length ++ F.enc k₁ c) ++ encodeAll F k₁ cs := by
    simp [encodeAll, joinAll, encodeChunk, List.map_cons]
  have hsne : encodeAll F k₁ (c :: cs) ≠ [] := by
    rw [hstream]
    intro h
    have := congrArg List.length h
    simp [toBytesBE_length] at this
  rw [readLoop_cons F k₂ _ hsne]
  simp only [hstream]
  have htake : ((toBytesBE 8 (F.enc k₁ c).length ++ F.enc k₁ c) ++ encodeAll F k₁ cs).take 8
      = toBytesBE 8 (F.enc k₁ c).length := by
    rw [List.append_assoc]
    exact List.take_left' (toBytesBE_length 8 _)
  have hdrop : ((toBytesBE 8 (F.enc k₁ c).length ++ F.enc k₁ c) ++ encodeAll F k₁ cs).drop 8
      = F.enc k₁ c ++ encodeAll F k₁ cs := by
    rw [List.append_assoc]
    exact List.drop_left' (toBytesBE_length 8 _)
  rw [htake, hdrop, fromBytesBE_toBytesBE 8 _ hsmall]
  rw [List.take_left' rfl]
  simp only [if_neg hne, hka]

/-- **C5** (amended): for every container encrypted from a *non-empty*
file under key `k₁` and every key `k₂` whose decryption rejects `k₁`'s
ciphertexts, `decrypt_file` with `k₂` fails with the per-chunk
authentication error on the very first chunk — the chunk loop writes no
plaintext at all — and after the cleanup no output file and no decryption
sidecar remain on disk. -/
theorem C5_wrong_key (F : FernetModel) (k₁ k₂ : Nat)
    (hash : List Nat → List Nat) (chunkSize : Nat) (content : List Nat)
    (encMeta : Option (List (List Char × List Char)))
    (decMeta : List (List Char × List Char))
    (hk : 0 < chunkSize) (hc : content ≠ [])
    (hka : ∀ m, F.dec k₂ (F.enc k₁ m) = none)
    (hne : ∀ c ∈ chunksOf chunkSize content, F.enc k₁ c ≠ [])
    (hsmall : ∀ c ∈ chunksOf chunkSize content, (F.enc k₁ c).length < 256 ^ 8)
    (hhs : (hash content).length < 256 ^ 8) :
    readLoop F k₂ (encodeAll F k₁ (chunksOf chunkSize content))
      = ([], some .integrity)
    ∧ decrypt_file F k₂ hash (encryptContainer F k₁ hash chunkSize content)
        encMeta decMeta
      = (⟨some (encryptContainer F k₁ hash chunkSize content), encMeta, none, none⟩,
         .error .integrity) := by
  have hloop : readLoop F k₂ (encodeAll F k₁ (chunksOf chunkSize content))
      = ([], some .integrity) := by
    rw [chunksOf_cons chunkSize hk content hc]
    exact readLoop_first_chunk_reject F k₁ k₂ _ _
      (hka _)
      (hne _ (by rw [chunksOf_cons chunkSize hk content hc]; simp))
      (hsmall _ (by rw [chunksOf_cons chunkSize hk content hc]; simp))
  refine ⟨hloop, ?_⟩
  unfold decrypt_file
  rw [encryptContainer_parse F k₁ hash chunkSize content hhs, hloop]
  rfl

theorem C5_wrong_key_witness :
    0 < 2 ∧ ([1, 2, 3] : List Nat) ≠ []
    ∧ decrypt_file demoFernet 1 (fun bs => bs)
        (encryptContainer demoFernet 0 (fun bs => bs) 2 [1, 2, 3]) none []
      = (⟨some (encryptContainer demoFernet 0 (fun bs => bs) 2 [1, 2, 3]),
          none, none, none⟩, .error .integrity) :=
  ⟨by decide, by decide,
   (C5_wrong_key demoFernet 0 1 (fun bs => bs) 2 [1, 2, 3] none []
     (by decide) (by decide)
     (demoFernet_wrongKey 0 1 (by decide))
     (fun c _ => demoFernet_ctNonEmpty 0 c)
     (fun c hc => by
       have hle := chunksOf_length_le 2 [1, 2, 3] c hc
       simp only [demoFernet, List.length_cons]
       omega)
     (by decide)).2⟩

/-- **C5** counterexample: the claim as stated is false for the container
of an empty file.  Encrypting empty content under key 0 writes a container
with zero chunks; decrypting it with the different key 1 performs no
authentication check at all, the digest of the empty output matches the
embedded digest of the empty input, and the run *succeeds* (even deleting
the container and writing the restored file and its sidecar) instead of
failing with an authentication error. -/
theorem C5_wrong_key_counterexample :
    (0 : Nat) ≠ 1
    ∧ decrypt_file demoFernet 1 (fun bs => bs)
        (encryptContainer demoFernet 0 (fun bs => bs) 2 []) none []
      = (⟨none, none, some [], some []⟩, .ok ()) := by
  constructor
  · decide
  · rfl

/-! ## Truncated containers (framing robustness)

What `decrypt_file`'s chunk loop actually does on a truncated stream:
end-of-stream at *or inside* a length prefix — and a missing chunk body —
end the loop silently (`if not chunk_size_bytes: break` /
`if not encrypted_chunk: break`); a partial chunk body is handed to
`fernet.decrypt`, which rejects it.  No distinct malformed-container
error exists in the code. -/

/-- Classifies a truncation offset `u` within an encoded chunk stream
whose records have ciphertext lengths `sizes`: `CutInBody sizes u` holds
iff the cut falls *strictly inside* some record's ciphertext body, as
opposed to at a record boundary, at or inside an 8-byte length prefix, or
exactly where a body should begin. -/
def CutInBody : List Nat → Nat → Prop
  | [], _ => False
  | L :: rest, u =>
    (8 < u ∧ u < 8 + L) ∨ (8 + L ≤ u ∧ CutInBody rest (u - (8 + L)))

instance instDecCutInBody :
    ∀ (sizes : List Nat) (u : Nat), Decidable (CutInBody sizes u)
  | [], _ => isFalse (fun h => h)
  | L :: rest, u =>
    haveI : Decidable (CutInBody rest (u - (8 + L))) := instDecCutInBody rest _
    inferInstanceAs (Decidable
      ((8 < u ∧ u < 8 + L) ∨ (8 + L ≤ u ∧ CutInBody rest (u - (8 + L)))))

theorem cutInBody_zero : ∀ sizes : List Nat, ¬CutInBody sizes 0
  | [], h => h
  | L :: rest, h => by
    simp only [CutInBody] at h
    rcases h with ⟨h1, _⟩ | ⟨h1, _⟩ <;> omega

/-- What the chunk loop does on every truncation of an encoded stream: a
cut strictly inside a ciphertext body reaches `fernet.decrypt`, which
rejects the partial token; every other cut ends the loop silently with
some prefix of the chunks decoded and no error. -/
theorem readLoop_trunc (F : FernetModel) (k : Nat) :
    ∀ cs : List (List Nat),
      (∀ c ∈ cs, F.dec k (F.enc k c) = some c) →
      (∀ c ∈ cs, F.enc k c ≠ []) →
      (∀ c ∈ cs, (F.enc k c).length < 256 ^ 8) →
      (∀ c ∈ cs, ∀ j, j < (F.enc k c).length →
        F.dec k ((F.enc k c).take j) = none) →
      ∀ u, u < (encodeAll F k cs).length →
        (CutInBody (cs.map (fun c => (F.enc k c).length)) u →
          (readLoop F k ((encodeAll F k cs).take u)).2 = some DecErr.integrity)
        ∧ (¬CutInBody (cs.map (fun c => (F.enc k c).length)) u →
          ∃ i, i < cs.length
            ∧ readLoop F k ((encodeAll F k cs).take u)
              = (joinAll (cs.take i), none)) := by
  intro cs
  induction cs with
  | nil =>
    intro _ _ _ _ u hu
    simp [encodeAll, joinAll] at hu
  | cons c cs ih =>
    intro hrt hne hsmall hpa u hu
    have hene : F.enc k c ≠ [] := hne c (by simp)
    have hesmall : (F.enc k c).length < 256 ^ 8 := hsmall c (by simp)
    have helen : 0 < (F.enc k c).length := List.length_pos.mpr hene
    have hstream : encodeAll F k (c :: cs)
        = (toBytesBE 8 (F.enc k c).length ++ F.enc k c) ++ encodeAll F k cs := by
      simp [encodeAll, joinAll, encodeChunk, List.map_cons]
    have hlen : (encodeAll F k (c :: cs)).length
        = 8 + (F.enc k c).length + (encodeAll F k cs).length := by
      rw [hstream]
      simp [toBytesBE_length]
      omega
    by_cases hu0 : u = 0
    · subst hu0
      exact ⟨fun h => absurd h (cutInBody_zero _),
        fun _ => ⟨0, by simp, by simp [readLoop_nil, joinAll]⟩⟩
    by_cases hu8 : u ≤ 8
    · -- end of stream at or inside the first length prefix: `read(8)` is
      -- short, `read(size)` then returns nothing, and the loop exits
      -- silently with no error
      have hnc : ¬CutInBody ((c :: cs).map (fun c => (F.enc k c).length)) u := by
        intro h
        simp only [List.map_cons, CutInBody] at h
        rcases h with ⟨h1, _⟩ | ⟨h1, _⟩ <;> omega
      refine ⟨fun h => absurd h hnc, fun _ => ⟨0, by simp, ?_⟩⟩
      have hslen : ((encodeAll F k (c :: cs)).take u).length = u := by
        rw [List.length_take]
        exact Nat.min_eq_left (Nat.le_of_lt hu)
      have hsne : (encodeAll F k (c :: cs)).take u ≠ [] := by
        intro h
        apply hu0
        rw [h] at hslen
        simpa using hslen.symm
      rw [readLoop_cons F k _ hsne]
      have hdrop8 : ((encodeAll F k (c :: cs)).take u).drop 8 = [] :=
        List.drop_eq_nil_of_le (by omega)
      simp [hdrop8, joinAll]
    by_cases hue : u ≤ 8 + (F.enc k c).length
    · -- truncation inside (or exactly at the end of) the first chunk body
      have hs : (encodeAll F k (c :: cs)).take u
          = toBytesBE 8 (F.enc k c).length ++ (F.enc k c).take (u - 8) := by
        rw [hstream, List.append_assoc, List.take_append_eq_append_take,
          List.take_of_length_le (by rw [toBytesBE_length]; omega),
          toBytesBE_length, List.take_append_eq_append_take]
        have h0 : u - 8 - (F.enc k c).length = 0 := by omega
        rw [h0, List.take_zero, List.append_nil]
      have hsne : (encodeAll F k (c :: cs)).take u ≠ [] := by
        rw [hs]
        intro h
        have := congrArg List.length h
        simp [toBytesBE_length] at this
      rw [readLoop_cons F k _ hsne, hs]
      rw [List.take_left' (toBytesBE_length 8 _),
        List.drop_left' (toBytesBE_length 8 _), fromBytesBE_toBytesBE 8 _ hesmall]
      have hbody : ((F.enc k c).take (u - 8)).take (F.enc k c).length
          = (F.enc k c).take (u - 8) :=
        List.take_of_length_le (by simp [List.length_take])
      by_cases hjfull : u - 8 = (F.enc k c).length
      · -- the first chunk is complete and the stream ends right after it:
        -- the next `read(8)` is empty and the loop exits cleanly
        have hnc : ¬CutInBody ((c :: cs).map (fun c => (F.enc k c).length)) u := by
          intro h
          simp only [List.map_cons, CutInBody] at h
          rcases h with ⟨h1, h2⟩ | ⟨h1, h2⟩
          · omega
          · have h0 : u - (8 + (F.enc k c).length) = 0 := by omega
            rw [h0] at h2
            exact cutInBody_zero _ h2
        have hcs : cs ≠ [] := by
          intro h
          rw [hlen] at hu
          subst h
          simp [encodeAll, joinAll] at hu
          omega
        refine ⟨fun h => absurd h hnc,
          fun _ => ⟨1, by simp [List.length_pos.mpr hcs], ?_⟩⟩
        rw [hjfull]
        simp [List.take_length, if_neg hene, hrt c (by simp), List.drop_length,
          readLoop_nil, joinAll, List.take_succ_cons]
      · -- a strict prefix of the chunk body reaches `fernet.decrypt`,
        -- which rejects it (InvalidToken)
        have hc2 : CutInBody ((c :: cs).map (fun c => (F.enc k c).length)) u := by
          simp only [List.map_cons, CutInBody]
          exact Or.inl ⟨by omega, by omega⟩
        refine ⟨fun _ => ?_, fun hn => absurd hc2 hn⟩
        have hdec : F.dec k ((F.enc k c).take (u - 8)) = none :=
          hpa c (by simp) (u - 8) (by omega)
        have hbne : (F.enc k c).take (u - 8) ≠ [] := by
          intro h
          have hlen0 := congrArg List.length h
          rw [List.length_take] at hlen0
          simp only [List.length_nil] at hlen0
          omega
        simp only [hbody]
        rw [if_neg hbne, hdec]
    · -- the first record is complete; recurse into the rest of the stream
      have hiff : CutInBody ((c :: cs).map (fun c => (F.enc k c).length)) u
          ↔ CutInBody (cs.map (fun c => (F.enc k c).length))
              (u - 8 - (F.enc k c).length) := by
        simp only [List.map_cons, CutInBody]
        rw [← Nat.sub_sub]
        constructor
        · intro h
          rcases h with ⟨_, h2⟩ | ⟨_, h2⟩
          · omega
          · exact h2
        · intro h
          exact Or.inr ⟨by omega, h⟩
      have hu' : u - 8 - (F.enc k c).length < (encodeAll F k cs).length := by
        rw [hlen] at hu
        omega
      have hle2 : (F.enc k c).length ≤ u - 8 := by omega
      have hs : (encodeAll F k (c :: cs)).take u
          = toBytesBE 8 (F.enc k c).length
            ++ (F.enc k c
              ++ (encodeAll F k cs).take (u - 8 - (F.enc k c).length)) := by
        rw [hstream, List.append_assoc, List.take_append_eq_append_take,
          List.take_of_length_le (by rw [toBytesBE_length]; omega),
          toBytesBE_length, List.take_append_eq_append_take,
          List.take_of_length_le hle2]
      have hsne : (encodeAll F k (c :: cs)).take u ≠ [] := by
        rw [hs]
        intro h
        have := congrArg List.length h
        simp [toBytesBE_length] at this
      rw [readLoop_cons F k _ hsne]
      simp only [hs]
      rw [List.take_left' (toBytesBE_length 8 _),
        List.drop_left' (toBytesBE_length 8 _), fromBytesBE_toBytesBE 8 _ hesmall,
        List.take_left' rfl, List.drop_left' rfl]
      obtain ⟨ihL, ihR⟩ := ih (fun x hx => hrt x (by simp [hx]))
        (fun x hx => hne x (by simp [hx])) (fun x hx => hsmall x (by simp [hx]))
        (fun x hx => hpa x (by simp [hx])) (u - 8 - (F.enc k c).length) hu'
      constructor
      · intro hcut
        have hL := ihL (hiff.mp hcut)
        simp [if_neg hene, hrt c (by simp), hL]
      · intro hn
        obtain ⟨i, hi, hR⟩ := ihR (fun h => hn (hiff.mpr h))
        refine ⟨i + 1, by simpa using hi, ?_⟩
        simp [if_neg hene, hrt c (by simp), hR, joinAll, List.take_succ_cons]

/-- **C2** (amended): truncating a container at *any* byte offset before
its end makes `decrypt_file` raise an error — but never a distinct
malformed-container error, which does not exist in the code.  The error
class is exactly determined by where the cut falls: strictly inside an
encrypted chunk body, the per-chunk authentication check rejects the
partial token (the `InvalidToken` integrity failure); at every other
offset — inside the header, at or inside an 8-byte length prefix, at a
record boundary, or where a chunk body should begin — the chunk loop ends
silently on the short read, and the truncation surfaces only as the final
digest-verification failure.  (The digest hypotheses — fixed-length,
non-empty output, collision-free at the original content — hold for
SHA-256 hex digests.) -/
theorem C2_truncation (F : FernetModel) (k : Nat)
    (hash : List Nat → List Nat) (chunkSize : Nat) (content : List Nat)
    (hk : 0 < chunkSize)
    (hrt : ∀ c ∈ chunksOf chunkSize content, F.dec k (F.enc k c) = some c)
    (hne : ∀ c ∈ chunksOf chunkSize content, F.enc k c ≠ [])
    (hsmall : ∀ c ∈ chunksOf chunkSize content, (F.enc k c).length < 256 ^ 8)
    (hpa : ∀ c ∈ chunksOf chunkSize content, ∀ j, j < (F.enc k c).length →
      F.dec k ((F.enc k c).take j) = none)
    (hhs : (hash content).length < 256 ^ 8)
    (hpos : 0 < (hash content).length)
    (hconst : ∀ bs, (hash bs).length = (hash content).length)
    (hcoll : ∀ bs, hash bs = hash content → bs = content)
    (t : Nat) (ht : t < (encryptContainer F k hash chunkSize content).length) :
    decryptContainer F k hash
        ((encryptContainer F k hash chunkSize content).take t)
      = .error
          (if 8 + (hash content).length ≤ t
              ∧ CutInBody
                  ((chunksOf chunkSize content).map (fun c => (F.enc k c).length))
                  (t - (8 + (hash content).length))
            then DecErr.integrity else DecErr.hashMismatch) := by
  have hClen : (encryptContainer F k hash chunkSize content).length
      = 8 + (hash content).length
        + (encodeAll F k (chunksOf chunkSize content)).length := by
    simp only [encryptContainer, List.length_append, toBytesBE_length]
  by_cases hreg : 8 + (hash content).length ≤ t
  · -- the cut falls in the chunk-stream region
    have hTake : (encryptContainer F k hash chunkSize content).take t
        = (toBytesBE 8 (hash content).length ++ hash content)
          ++ (encodeAll F k (chunksOf chunkSize content)).take
              (t - (8 + (hash content).length)) := by
      unfold encryptContainer
      rw [List.take_append_eq_append_take,
        List.take_of_length_le (by simp [toBytesBE_length]; omega)]
      simp [toBytesBE_length]
    have htk8 : ∀ S' : List Nat,
        ((toBytesBE 8 (hash content).length ++ hash content) ++ S').take 8
          = toBytesBE 8 (hash content).length := by
      intro S'
      rw [List.append_assoc]
      exact List.take_left' (toBytesBE_length 8 _)
    have hdr8 : ∀ S' : List Nat,
        ((toBytesBE 8 (hash content).length ++ hash content) ++ S').drop 8
          = hash content ++ S' := by
      intro S'
      rw [List.append_assoc]
      exact List.drop_left' (toBytesBE_length 8 _)
    have hu : t - (8 + (hash content).length)
        < (encodeAll F k (chunksOf chunkSize content)).length := by
      rw [hClen] at ht
      omega
    obtain ⟨tL, tR⟩ := readLoop_trunc F k (chunksOf chunkSize content) hrt hne
      hsmall hpa (t - (8 + (hash content).length)) hu
    by_cases hcut : CutInBody
        ((chunksOf chunkSize content).map (fun c => (F.enc k c).length))
        (t - (8 + (hash content).length))
    · rw [if_pos ⟨hreg, hcut⟩]
      unfold decryptContainer
      rw [hTake, htk8, hdr8, fromBytesBE_toBytesBE 8 _ hhs,
        List.take_left' rfl, List.drop_left' rfl]
      have hL := tL hcut
      rcases hrl : readLoop F k ((encodeAll F k (chunksOf chunkSize content)).take
          (t - (8 + (hash content).length))) with ⟨out, r2⟩
      rw [hrl] at hL
      simp only at hL
      rw [hL]
    · rw [if_neg (fun hh => hcut hh.2)]
      unfold decryptContainer
      obtain ⟨i, hi, hR⟩ := tR hcut
      rw [hTake, htk8, hdr8, fromBytesBE_toBytesBE 8 _ hhs,
        List.take_left' rfl, List.drop_left' rfl, hR]
      have hneq : hash (joinAll ((chunksOf chunkSize content).take i))
          ≠ hash content := by
        intro heq
        have heqc := hcoll _ heq
        have hlt := joinAll_take_length_lt (chunksOf chunkSize content) i hi
          (chunksOf_ne_nil chunkSize hk content)
        rw [heqc, joinAll_chunksOf chunkSize hk content] at hlt
        exact lt_irrefl _ hlt
      simp [hneq]
  · -- the cut falls inside the header: the loop reads no chunk at all and
    -- the empty output fails the digest comparison
    rw [if_neg (fun hh => hreg hh.1)]
    have hTakeH : (encryptContainer F k hash chunkSize content).take t
        = (toBytesBE 8 (hash content).length ++ hash content).take t := by
      unfold encryptContainer
      rw [List.take_append_eq_append_take]
      have h0 : t - (toBytesBE 8 (hash content).length ++ hash content).length
          = 0 := by
        simp [toBytesBE_length]
        omega
      rw [h0, List.take_zero, List.append_nil]
    by_cases ht8 : t ≤ 8
    · -- end of stream inside the 8-byte digest-length field
      have hE : hash [] ≠ [] := by
        intro h
        have hc0 := hconst []
        rw [h] at hc0
        simp only [List.length_nil] at hc0
        omega
      unfold decryptContainer
      rw [hTakeH]
      have hdrop : ((toBytesBE 8 (hash content).length
          ++ hash content).take t).drop 8 = [] := by
        apply List.drop_eq_nil_of_le
        rw [List.length_take]
        omega
      rw [hdrop]
      simp [readLoop_nil, hE]
    · -- end of stream inside the digest bytes: the parsed digest is a
      -- proper prefix, shorter than any digest the hash produces
      have hH : (toBytesBE 8 (hash content).length ++ hash content).take t
          = toBytesBE 8 (hash content).length
            ++ (hash content).take (t - 8) := by
        rw [List.take_append_eq_append_take,
          List.take_of_length_le (by rw [toBytesBE_length]; omega),
          toBytesBE_length]
      have hOH : ((hash content).take (t - 8)).take (hash content).length
          = (hash content).take (t - 8) :=
        List.take_of_length_le (by rw [List.length_take]; exact Nat.min_le_right _ _)
      have hbody : ((hash content).take (t - 8)).drop (hash content).length = [] :=
        List.drop_eq_nil_of_le (by rw [List.length_take]; exact Nat.min_le_right _ _)
      have hneq : hash [] ≠ (hash content).take (t - 8) := by
        intro hq
        have hc0 := hconst []
        rw [hq, List.length_take, Nat.min_eq_left (by omega)] at hc0
        omega
      unfold decryptContainer
      rw [hTakeH, hH]
      rw [List.take_left' (toBytesBE_length 8 _),
        List.drop_left' (toBytesBE_length 8 _), fromBytesBE_toBytesBE 8 _ hhs]
      rw [hbody, hOH, readLoop_nil]
      simp [hneq]

/-- A digest instance for the truncation witness: fixed-length non-empty
output, collision-free at the content `[5]`. -/
def demoHash (bs : List Nat) : List Nat :=
  if bs = [5] then [1] else [0]

theorem demoHash_const : ∀ bs, (demoHash bs).length = (demoHash [5]).length := by
  intro bs
  unfold demoHash
  split <;> rfl

theorem demoHash_coll : ∀ bs, demoHash bs = demoHash [5] → bs = [5] := by
  intro bs h
  by_cases hb : bs = [5]
  · exact hb
  · exfalso
    simp [demoHash, hb] at h

/-- Modelled from the spec: §4.4's Container Reader raises
**MalformedContainer** when end-of-stream falls inside an 8-byte length
prefix or inside a chunk body, and terminates normally only at a
length-prefix boundary.  This error class does not exist in the code; the
definition exists solely to state what the claim demands of the reader. -/
inductive SpecReadErr where
  | malformed
deriving DecidableEq

def specReadAux : Nat → List Nat → Except SpecReadErr (List (List Nat))
  | _, [] => .ok []
  | 0, _ :: _ => .error .malformed
  | fuel + 1, s =>
    if s.length < 8 then .error .malformed
    else if (s.drop 8).length < fromBytesBE (s.take 8) then .error .malformed
    else
      match specReadAux fuel ((s.drop 8).drop (fromBytesBE (s.take 8))) with
      | .ok cs => .ok ((s.drop 8).take (fromBytesBE (s.take 8)) :: cs)
      | .error e => .error e

/-- Modelled from the spec: the reader contract of §4.4, as a function of
the chunk-stream bytes. -/
def specRead (s : List Nat) : Except SpecReadErr (List (List Nat)) :=
  specReadAux s.length s

/-- **C2** counterexample: the claim as stated is false.  Take the
container written for the one-byte file `[5]` (digest modelled as the
content itself) and truncate it at byte offset 12 — three bytes into the
length prefix of the first chunk.  The spec's reader calls this
malformed, but the code's chunk loop accepts the short read silently and
returns a normal end of stream (`([], none)`); the only error the code
ever raises for this container comes later, from the digest comparison
(`hashMismatch`), not from any framing check. -/
theorem C2_truncation_counterexample :
    readLoop demoFernet 0
        (((encryptContainer demoFernet 0 (fun bs => bs) 2 [5]).take 12).drop 9)
      = ([], none)
    ∧ specRead (((encryptContainer demoFernet 0 (fun bs => bs) 2 [5]).take 12).drop 9)
      = .error .malformed
    ∧ decryptContainer demoFernet 0 (fun bs => bs)
        ((encryptContainer demoFernet 0 (fun bs => bs) 2 [5]).take 12)
      = .error .hashMismatch :=
  ⟨by decide, rfl, rfl⟩

theorem C2_truncation_witness :
    12 < (encryptContainer demoFernet 0 demoHash 2 [5]).length
    ∧ decryptContainer demoFernet 0 demoHash
        ((encryptContainer demoFernet 0 demoHash 2 [5]).take 12)
      = .error
          (if 8 + (demoHash [5]).length ≤ 12
              ∧ CutInBody
                  ((chunksOf 2 [5]).map (fun c => (demoFernet.enc 0 c).length))
                  (12 - (8 + (demoHash [5]).length))
            then DecErr.integrity else DecErr.hashMismatch) :=
  ⟨by decide,
   C2_truncation demoFernet 0 demoHash 2 [5] (by decide)
     (fun c _ => demoFernet_roundTrip 0 c)
     (fun c _ => demoFernet_ctNonEmpty 0 c)
     (fun c hc => by
       have hle := chunksOf_length_le 2 [5] c hc
       simp only [demoFernet, List.length_cons]
       omega)
     (fun c _ j hj => demoFernet_truncReject 0 c j hj)
     (by decide) (by decide) demoHash_const demoHash_coll 12 (by decide)⟩
